import Mathlib

/- Verification development for the application-inventory program in src/apps.py.

   Modelling conventions (shallow embedding):
   * Python strings are modelled as `List Char` (Unicode code points).
   * Registry value payloads (Python `bytes`) are modelled as `List (Fin 256)`.
   * Python dicts (which preserve insertion order) are modelled as association
     lists `List (List Char × Nat)` with unique keys; Python sets are modelled
     as duplicate-free lists in insertion order.
   * The two external data sources (filesystem walk, registry enumeration) are
     modelled as explicit inputs: an optional list of file names per Start-Menu
     root, and an optional list of raw (value_name, value_data) records per
     UserAssist GUID section; `none` models an absent root / a section whose
     open raises FileNotFoundError.
   * `list.sort` in Python is a stable sort; it is modelled with insertion sort
     (`List.insertionSort`), which is stable in the same sense, using the
     relation induced by the Python sort key (reversed for `reverse=True`).
   * Python's `str.strip`, `str.lower` and `str.casefold` are modelled on their
     ASCII fragment (the Unicode tables are out of scope); all identifiers the
     program handles in its examples are ASCII. -/

/-- Coerce a string literal to the `List Char` representation used throughout. -/
def str (s : String) : List Char := s.data

/-- ASCII fragment of Python's whitespace set used by `str.strip()`. -/
def isSpaceChar (c : Char) : Bool :=
  c == ' ' || c == '\t' || c == '\n' || c == '\r' || c == '\x0b' || c == '\x0c'

/-- Python `s.strip()`: remove leading and trailing whitespace. -/
def pyStrip (s : List Char) : List Char :=
  ((s.dropWhile isSpaceChar).reverse.dropWhile isSpaceChar).reverse

/-- ASCII fragment of Python `str.lower` on one character. -/
def toLowerChar (c : Char) : Char :=
  if 65 ≤ c.toNat ∧ c.toNat ≤ 90 then Char.ofNat (c.toNat + 32) else c

/-- Python `s.lower()` (ASCII fragment). -/
def pyLower (s : List Char) : List Char := s.map toLowerChar

/-- Python `s.casefold()`; on the ASCII fragment it coincides with `lower`. -/
def pyCaseFold (s : List Char) : List Char := s.map toLowerChar

/-- Windows path separators recognised by `ntpath` (`os.path` on Windows). -/
def isSep (c : Char) : Bool := c == '\\' || c == '/'

/-- Replace `/` by `\` (the `p.replace(ALTSEP, SEP)` step of `ntpath.splitdrive`). -/
def normSlash (p : List Char) : List Char :=
  p.map fun c => if c = '/' then '\\' else c

/-- Index of the first occurrence of `c` in `l` at position `start` or later
    (Python `l.find(c, start)`), if any. -/
def findFrom (l : List Char) (c : Char) (start : Nat) : Option Nat :=
  match (l.drop start).findIdx? (fun d => d == c) with
  | some i => some (start + i)
  | none => none

/-- Length of the drive prefix of a Windows path, following `ntpath.splitdrive`:
    a UNC share prefix (`\\server\share`) or a drive letter (`C:`); otherwise 0. -/
def splitdriveLen (p : List Char) : Nat :=
  if 2 ≤ p.length then
    let normp := normSlash p
    if normp.take 2 = ['\\', '\\'] ∧ normp.get? 2 ≠ some '\\' then
      match findFrom normp '\\' 2 with
      | none => 0
      | some index =>
        match findFrom normp '\\' (index + 1) with
        | none => p.length
        | some index2 => if index2 = index + 1 then 0 else index2
    else if normp.get? 1 = some ':' then 2 else 0
  else 0

/-- `os.path.basename` on Windows (`ntpath.basename`): drop the drive prefix,
    then keep the maximal suffix containing no path separator. -/
def basename (p : List Char) : List Char :=
  ((p.drop (splitdriveLen p)).reverse.takeWhile (fun c => !(isSep c))).reverse

/-- Python `s.split(sep)` for a one-character separator: the list of segments
    between occurrences of `sep` (never empty; `[s]` when `sep` is absent). -/
def pySplit (sep : Char) : List Char → List (List Char)
  | [] => [[]]
  | c :: rest =>
    match pySplit sep rest with
    | [] => [[]]
    | h :: t => if c = sep then [] :: h :: t else (c :: h) :: t

/-- The maximal suffix of `l` lying strictly after the last occurrence of `sep`
    (the whole of `l` when `sep` does not occur). -/
def afterLast (sep : Char) : List Char → List Char
  | [] => []
  | c :: rest => if sep ∈ rest ∨ c = sep then afterLast sep rest else c :: rest

/-- `prettify_name` (src/apps.py lines 49-67), transcribed statement by
    statement: strip; basename when a backslash occurs; segment after the last
    `!` when that segment is non-blank; strip a case-insensitive `.exe` suffix. -/
def prettify_name (raw_name : List Char) : List Char :=
  let name0 := pyStrip raw_name
  let name1 := if '\\' ∈ name0 then basename name0 else name0
  let name2 :=
    if '!' ∈ name1 then
      let parts := pySplit '!' name1
      if pyStrip (parts.getLastD []) ≠ [] then pyStrip (parts.getLastD []) else name1
    else name1
  if List.isSuffixOf (str (r".exe")) (pyLower name2) then
    name2.take (name2.length - 4)
  else name2

/-- One step of the ROT13 cipher (`codecs.decode(-, 'rot_13')`): rotate ASCII
    letters by 13 inside their case class, leave every other character alone. -/
def rot13Char (c : Char) : Char :=
  if 97 ≤ c.toNat ∧ c.toNat ≤ 122 then Char.ofNat ((c.toNat - 97 + 13) % 26 + 97)
  else if 65 ≤ c.toNat ∧ c.toNat ≤ 90 then Char.ofNat ((c.toNat - 65 + 13) % 26 + 65)
  else c

/-- ROT13 on a whole string. -/
def rot13 (s : List Char) : List Char := s.map rot13Char

/-- `struct.unpack_from("<I", data, offset)[0]`: the unsigned 32-bit
    little-endian integer formed by the four bytes at `offset`. -/
def unpackLEU32From (data : List (Fin 256)) (offset : Nat) : Nat :=
  (data.getD offset 0).val + 256 * (data.getD (offset + 1) 0).val +
    65536 * (data.getD (offset + 2) 0).val + 16777216 * (data.getD (offset + 3) 0).val

/-- Count extraction of `get_userassist_usage` (src/apps.py lines 88-91): the
    little-endian field at byte offset 4 when the payload has at least 8 bytes,
    and 0 otherwise. -/
def usageCount (value_data : List (Fin 256)) : Nat :=
  if 8 ≤ value_data.length then unpackLEU32From value_data 4 else 0

/-- Little-endian value of a byte sequence (spec-side formulation of the
    "fixed 4-byte little-endian unsigned field" of the spec, taken as an
    independent fold over the bytes, least significant first). -/
def leBytes (bs : List (Fin 256)) : Nat :=
  bs.foldr (fun b acc => b.val + 256 * acc) 0

/-- The RecordDecoder contract of the spec applied to one raw record, as the
    loop body of `get_userassist_usage` implements it (src/apps.py lines
    87-93): ROT13-decode the value name, prettify it, extract the count. -/
def decode (encoded_key : List Char) (payload : List (Fin 256)) :
    List Char × Nat :=
  (prettify_name (rot13 encoded_key), usageCount payload)

/-- A raw UserAssist record: registry value name and value payload. -/
abbrev RawRecord := List Char × List (Fin 256)

/-- The friendly name a raw record contributes its count to. -/
def recordKey (r : RawRecord) : List Char := prettify_name (rot13 r.1)

/-- Ordered-dict lookup (`d.get(k)`), on the association-list model. -/
def dGet : List (List Char × Nat) → List Char → Option Nat
  | [], _ => none
  | p :: rest, k => if p.1 = k then some p.2 else dGet rest k

/-- Ordered-dict assignment (`d[k] = v`): update in place when the key exists
    (Python dicts keep the original position), append otherwise. -/
def dSet : List (List Char × Nat) → List Char → Nat → List (List Char × Nat)
  | [], k, v => [(k, v)]
  | p :: rest, k, v => if p.1 = k then (k, v) :: rest else p :: dSet rest k v

/-- `d.get(k, 0)`. -/
def valAt (d : List (List Char × Nat)) (k : List Char) : Nat :=
  (dGet d k).getD 0

/-- Loop body of `get_userassist_usage` for one enumerated record
    (src/apps.py line 96): `usage_dict[app_name] = usage_dict.get(app_name, 0)
    + usage_count`. -/
def addRecord (d : List (List Char × Nat)) (r : RawRecord) :
    List (List Char × Nat) :=
  dSet d (recordKey r) (valAt d (recordKey r) + usageCount r.2)

/-- Contribution of one GUID section to the usage dict: an absent section
    (`OpenKey` raises FileNotFoundError, caught by `except FileNotFoundError:
    pass`) contributes nothing; a present one has each enumerated record
    folded in. -/
def sectionStep (d : List (List Char × Nat)) (sec : Option (List RawRecord)) :
    List (List Char × Nat) :=
  match sec with
  | none => d
  | some recs => recs.foldl addRecord d

/-- `get_userassist_usage` (src/apps.py lines 69-102). The registry is
    modelled as one optional record list per GUID section; `none` models a
    section whose `OpenKey` raises FileNotFoundError. -/
def get_userassist_usage (sections : List (Option (List RawRecord))) :
    List (List Char × Nat) :=
  sections.foldl sectionStep []

/-- All records actually delivered by the present sections, in order. -/
def allRecords (sections : List (Option (List RawRecord))) : List RawRecord :=
  (sections.filterMap id).flatten

/-- Set insertion (`s.add(x)`) on the insertion-ordered list model of a set. -/
def sAdd (s : List (List Char)) (x : List Char) : List (List Char) :=
  if x ∈ s then s else s ++ [x]

/-- `os.path.splitext(p)[0]` on Windows: cut at the last dot of the final path
    component, unless every character of that component before the dot is
    itself a dot (so `.lnk` has no extension). -/
def splitext_root (p : List Char) : List Char :=
  let start := match ((p.enum.filter fun x => isSep x.2).getLast?).map Prod.fst with
    | some i => i + 1
    | none => 0
  match ((p.enum.filter fun x => x.2 == '.').getLast?).map Prod.fst with
  | none => p
  | some dot =>
    if start ≤ dot then
      if ((p.drop start).take (dot - start)).any (fun c => c ≠ '.') then p.take dot
      else p
    else p

/-- `get_start_menu_shortcuts` (src/apps.py lines 12-38). Each Start-Menu root
    is modelled as `none` when `os.path.exists` fails (the root is skipped) and
    otherwise as the list of file names produced by walking it; names ending in
    `.lnk` (case-insensitively) are added, without the extension, to the
    result set. -/
def get_start_menu_shortcuts (roots : List (Option (List (List Char)))) :
    List (List Char) :=
  roots.foldl
    (fun app_names root =>
      match root with
      | none => app_names
      | some files =>
        files.foldl
          (fun acc filename =>
            if List.isSuffixOf (str (r".lnk")) (pyLower filename) then
              sAdd acc (splitext_root filename)
            else acc)
          app_names)
    []

/-- A row of the combined list built in `main`: (app_name, usage_count,
    is_start_menu). -/
abbrev Entry := List Char × Nat × Bool

/-- The Python sort key of src/apps.py line 187: `(not x[2], x[1])`. -/
def entryKey (x : Entry) : Bool × Nat := (!x.2.2, x.2.1)

/-- Lexicographic `≤` on Python tuples `(bool, int)` (False < True). -/
def pairLe (a b : Bool × Nat) : Bool :=
  (decide (a.1 = b.1) && decide (a.2 ≤ b.2)) || (!a.1 && b.1)

/-- The ordering `list.sort(key=..., reverse=True)` establishes between two
    rows: `a` may precede `b` exactly when the key of `a` is not smaller.
    Sorting stably with this relation is Python's stable descending sort. -/
def entryRel (a b : Entry) : Prop := pairLe (entryKey b) (entryKey a) = true

instance : DecidableRel entryRel :=
  fun _ _ => inferInstanceAs (Decidable (_ = true))

/-- Steps 3 and 4 of `main` (src/apps.py lines 177-187): one row per Start-Menu
    app with its usage count, then one row per usage entry not in the Start-Menu
    set, sorted by `(not is_start_menu, count)` descending (stable). -/
def build_final_list (start_menu_apps : List (List Char))
    (usage_dict : List (List Char × Nat)) : List Entry :=
  List.insertionSort entryRel
    (start_menu_apps.map (fun a => (a, valAt usage_dict a, true)) ++
      (usage_dict.filter fun p => decide (p.1 ∉ start_menu_apps)).map
        fun p => (p.1, p.2, false))

/-- Code-point lexicographic `≤` on strings (Python string comparison). -/
def lexLe : List Char → List Char → Bool
  | [], _ => true
  | _ :: _, [] => false
  | a :: as, b :: bs => if a = b then lexLe as bs else decide (a < b)

/-- The ordering used by `start_menu_only.sort(key=str.casefold)`
    (src/apps.py line 124): case-insensitive alphabetical order. -/
def cfRel (a b : List Char) : Prop := lexLe (pyCaseFold a) (pyCaseFold b) = true

instance : DecidableRel cfRel :=
  fun _ _ => inferInstanceAs (Decidable (_ = true))

/-- The names `on_save_as_txt` writes, in order (src/apps.py lines 122-124):
    the Start-Menu rows of the final list, sorted case-insensitively. -/
def exportNames (final_list : List Entry) : List (List Char) :=
  List.insertionSort cfRel ((final_list.filter fun x => x.2.2).map fun x => x.1)

/-- The full text `on_save_as_txt` writes (src/apps.py lines 126-128): each
    exported name followed by a newline, concatenated. -/
def export_txt (final_list : List Entry) : List Char :=
  ((exportNames final_list).map fun name => name ++ ['\n']).flatten

/-- Spec-side NameNormalizer step 1 ("if raw contains a path separator, reduce
    to the final path component"); the trigger is the platform path separator
    `os.sep`, the backslash. -/
def basenameStep (name : List Char) : List Char :=
  if '\\' ∈ name then basename name else name

/-- Spec-side NameNormalizer step 2 (the `!` rule): take the substring after
    the last `!`, trimmed, when it is non-blank; otherwise keep the value from
    before the rule. -/
def bangStep (name : List Char) : List Char :=
  if '!' ∈ name then
    if pyStrip (afterLast '!' name) ≠ [] then pyStrip (afterLast '!' name) else name
  else name

/-- Spec-side NameNormalizer step 3: strip a trailing case-insensitive `.exe`. -/
def exeStep (name : List Char) : List Char :=
  if List.isSuffixOf (str (r".exe")) (pyLower name) then
    name.take (name.length - 4)
  else name

/-- Reading back a valid code point stored with `Char.ofNat`. -/
theorem char_toNat_ofNat (n : Nat) (h : n.isValidChar) : (Char.ofNat n).toNat = n := by
  simp [Char.ofNat, h, Char.toNat, Char.ofNatAux, UInt32.toNat, UInt32.ofNat',
    BitVec.toNat_ofNatLt]

/-- `Char.ofNat` applied to a character's own code point gives it back. -/
theorem char_ofNat_toNat (c : Char) : Char.ofNat c.toNat = c := by
  have h : (c.toNat).isValidChar := c.valid
  apply Char.ext
  apply UInt32.eq_of_toBitVec_eq
  apply BitVec.eq_of_toNat_eq
  rw [Char.ofNat, dif_pos h]
  simp [Char.toNat, Char.ofNatAux, UInt32.toNat, UInt32.ofNat', BitVec.toNat_ofNatLt]

/-- ROT13 undoes itself on every character. -/
theorem rot13Char_invol (c : Char) : rot13Char (rot13Char c) = c := by
  unfold rot13Char
  by_cases h1 : 97 ≤ c.toNat ∧ c.toNat ≤ 122
  · rw [if_pos h1]
    have hv : ((c.toNat - 97 + 13) % 26 + 97).isValidChar := Or.inl (by omega)
    have ht := char_toNat_ofNat _ hv
    rw [ht, if_pos (by omega)]
    have harith : ((c.toNat - 97 + 13) % 26 + 97 - 97 + 13) % 26 + 97 = c.toNat := by omega
    rw [harith]
    exact char_ofNat_toNat c
  · rw [if_neg h1]
    by_cases h2 : 65 ≤ c.toNat ∧ c.toNat ≤ 90
    · rw [if_pos h2]
      have hv : ((c.toNat - 65 + 13) % 26 + 65).isValidChar := Or.inl (by omega)
      have ht := char_toNat_ofNat _ hv
      rw [ht, if_neg (by omega), if_pos (by omega)]
      have harith : ((c.toNat - 65 + 13) % 26 + 65 - 65 + 13) % 26 + 65 = c.toNat := by omega
      rw [harith]
      exact char_ofNat_toNat c
    · rw [if_neg h2, if_neg h1, if_neg h2]

/-- `pySplit` always yields at least one segment. -/
theorem pySplit_ne_nil (sep : Char) (l : List Char) : pySplit sep l ≠ [] := by
  cases l with
  | nil => simp [pySplit]
  | cons c rest =>
    rcases hm : pySplit sep rest with _ | ⟨h, t⟩
    · simp [pySplit, hm]
    · simp only [pySplit, hm]
      split <;> simp

/-- A string without the separator is a single segment. -/
theorem pySplit_of_not_mem (sep : Char) (l : List Char) (h : sep ∉ l) :
    pySplit sep l = [l] := by
  induction l with
  | nil => rfl
  | cons c rest ih =>
    simp only [List.mem_cons, not_or] at h
    simp only [pySplit, ih h.2]
    rw [if_neg fun e => h.1 e.symm]

/-- A string containing the separator splits into at least two segments. -/
theorem two_le_length_pySplit (sep : Char) (l : List Char) (h : sep ∈ l) :
    2 ≤ (pySplit sep l).length := by
  induction l with
  | nil => cases h
  | cons c rest ih =>
    rcases hm : pySplit sep rest with _ | ⟨hd, t⟩
    · exact absurd hm (pySplit_ne_nil sep rest)
    · simp only [pySplit, hm]
      by_cases hc : c = sep
      · rw [if_pos hc]; simp
      · rw [if_neg hc]
        have hrest : sep ∈ rest := by
          rcases List.mem_cons.mp h with e | m
          · exact absurd e.symm hc
          · exact m
        have h2 := ih hrest
        rw [hm] at h2
        simpa using h2

/-- The last segment produced by `pySplit` is the suffix after the last
    occurrence of the separator. -/
theorem getLastD_pySplit (sep : Char) (l : List Char) :
    (pySplit sep l).getLastD [] = afterLast sep l := by
  induction l with
  | nil => rfl
  | cons c rest ih =>
    rcases hm : pySplit sep rest with _ | ⟨hd, t⟩
    · exact absurd hm (pySplit_ne_nil sep rest)
    · simp only [pySplit, afterLast, hm]
      rw [hm] at ih
      by_cases hc : c = sep
      · rw [if_pos hc, if_pos (Or.inr hc), List.getLastD_cons]
        exact ih
      · rw [if_neg hc]
        by_cases hr : sep ∈ rest
        · rw [if_pos (Or.inl hr)]
          have hlen := two_le_length_pySplit sep rest hr
          rw [hm] at hlen
          have ht : t ≠ [] := by
            intro e
            rw [e] at hlen
            simp at hlen
          obtain ⟨y, hy⟩ := Option.isSome_iff_exists.mp (List.getLast?_isSome.mpr ht)
          rw [List.getLastD_cons] at ih ⊢
          rw [List.getLastD_eq_getLast?, hy] at ih ⊢
          exact ih
        · rw [if_neg (by simp [hr, hc])]
          have hm2 := pySplit_of_not_mem sep rest hr
          rw [hm] at hm2
          simp only [List.cons.injEq] at hm2
          obtain ⟨rfl, rfl⟩ := hm2
          simp [List.getLastD_cons]

/-- Looking a key up after a dict assignment. -/
theorem dGet_dSet (d : List (List Char × Nat)) (k n : List Char) (v : Nat) :
    dGet (dSet d k v) n = if k = n then some v else dGet d n := by
  induction d with
  | nil =>
    simp only [dSet, dGet]
  | cons p rest ih =>
    simp only [dSet]
    by_cases hp : p.1 = k
    · rw [if_pos hp]
      simp only [dGet]
      by_cases hk : k = n
      · rw [if_pos hk, if_pos hk]
      · rw [if_neg hk, if_neg hk, if_neg fun e => hk (hp.symm.trans e)]
    · rw [if_neg hp]
      simp only [dGet, ih]
      by_cases hpn : p.1 = n
      · have hkn : ¬k = n := fun e => hp (hpn.trans e.symm)
        rw [if_pos hpn, if_neg hkn, if_pos hpn]
      · simp [hpn]

/-- `d.get(n, 0)` after a dict assignment. -/
theorem valAt_dSet (d : List (List Char × Nat)) (k n : List Char) (v : Nat) :
    valAt (dSet d k v) n = if k = n then v else valAt d n := by
  unfold valAt
  rw [dGet_dSet]
  split <;> rfl

/-- Folding one record into the dict adds its count at its key and changes
    nothing elsewhere. -/
theorem valAt_addRecord (d : List (List Char × Nat)) (r : RawRecord)
    (n : List Char) :
    valAt (addRecord d r) n =
      valAt d n + if recordKey r = n then usageCount r.2 else 0 := by
  unfold addRecord
  rw [valAt_dSet]
  by_cases h : recordKey r = n
  · rw [if_pos h, if_pos h, h]
  · rw [if_neg h, if_neg h, Nat.add_zero]

/-- Folding a record list into the dict adds, at every name, the sum of the
    counts of the records normalizing to that name. -/
theorem valAt_foldl_addRecord (recs : List RawRecord)
    (d : List (List Char × Nat)) (n : List Char) :
    valAt (recs.foldl addRecord d) n =
      valAt d n +
        ((recs.filter fun r => decide (recordKey r = n)).map
            fun r => usageCount r.2).sum := by
  induction recs generalizing d with
  | nil => simp
  | cons r recs ih =>
    simp only [List.foldl_cons, ih, valAt_addRecord, List.filter_cons]
    by_cases h : recordKey r = n
    · simp [h]
      omega
    · simp [h]

/-- Value of the aggregated usage dict at a name, via all delivered records. -/
theorem valAt_usage_foldl (sections : List (Option (List RawRecord)))
    (d : List (List Char × Nat)) (n : List Char) :
    valAt (sections.foldl sectionStep d) n =
      valAt d n +
        (((allRecords sections).filter fun r => decide (recordKey r = n)).map
            fun r => usageCount r.2).sum := by
  induction sections generalizing d with
  | nil => simp [allRecords]
  | cons sec rest ih =>
    cases sec with
    | none =>
      simp only [List.foldl_cons, sectionStep, ih]
      simp [allRecords]
    | some recs =>
      simp only [List.foldl_cons, sectionStep, ih, valAt_foldl_addRecord]
      have hall : allRecords (some recs :: rest) = recs ++ allRecords rest := by
        simp [allRecords]
      rw [hall]
      simp only [List.filter_append, List.map_append, List.sum_append]
      omega

/-- Totality of case-insensitive lexicographic comparison. -/
theorem lexLe_total (a b : List Char) : lexLe a b = true ∨ lexLe b a = true := by
  induction a generalizing b with
  | nil => left; rfl
  | cons x as ih =>
    cases b with
    | nil => right; rfl
    | cons y bs =>
      by_cases hxy : x = y
      · subst hxy
        simp only [lexLe, if_pos rfl]
        exact ih bs
      · simp only [lexLe, if_neg hxy, if_neg (Ne.symm hxy)]
        rcases lt_or_gt_of_ne hxy with h | h
        · left; exact decide_eq_true h
        · right; exact decide_eq_true h

/-- Transitivity of lexicographic comparison. -/
theorem lexLe_trans (a b c : List Char) (h1 : lexLe a b = true)
    (h2 : lexLe b c = true) : lexLe a c = true := by
  induction a generalizing b c with
  | nil => rfl
  | cons x as ih =>
    cases b with
    | nil => exact absurd h1 (by simp [lexLe])
    | cons y bs =>
      cases c with
      | nil => exact absurd h2 (by simp [lexLe])
      | cons z cs =>
        simp only [lexLe] at h1 h2 ⊢
        by_cases hxy : x = y
        · subst hxy
          rw [if_pos rfl] at h1
          by_cases hxz : x = z
          · subst hxz
            rw [if_pos rfl] at h2 ⊢
            exact ih bs cs h1 h2
          · rw [if_neg hxz] at h2 ⊢
            exact h2
        · rw [if_neg hxy] at h1
          have hx : x < y := of_decide_eq_true h1
          by_cases hyz : y = z
          · subst hyz
            rw [if_neg hxy]
            exact decide_eq_true hx
          · rw [if_neg hyz] at h2
            have hy : y < z := of_decide_eq_true h2
            have hxz : x < z := lt_trans hx hy
            rw [if_neg (ne_of_lt hxz)]
            exact decide_eq_true hxz

instance : IsTotal (List Char) cfRel :=
  ⟨fun a b => lexLe_total (pyCaseFold a) (pyCaseFold b)⟩

instance : IsTrans (List Char) cfRel :=
  ⟨fun _ _ _ h1 h2 => lexLe_trans _ _ _ h1 h2⟩

/-- C4: the key-rotation cipher used to decode encoded keys is a deterministic
total involution on strings: applying it twice to any string yields the
original string, and non-alphabetic characters pass through unchanged. -/
theorem c4_rot13_involution :
    (∀ s : List Char, rot13 (rot13 s) = s) ∧
      ∀ c : Char, ¬(97 ≤ c.toNat ∧ c.toNat ≤ 122) →
        ¬(65 ≤ c.toNat ∧ c.toNat ≤ 90) → rot13Char c = c := by
  constructor
  · intro s
    unfold rot13
    rw [List.map_map]
    have hcomp : rot13Char ∘ rot13Char = id := funext fun c => rot13Char_invol c
    rw [hcomp, List.map_id]
  · intro c h1 h2
    unfold rot13Char
    rw [if_neg h1, if_neg h2]

/-- Witness for C4 at the concrete non-alphabetic character `'1'`. -/
theorem c4_rot13_involution_witness : rot13Char '1' = '1' :=
  c4_rot13_involution.2 '1' (by decide) (by decide)

/-- C5: `prettify_name` applies its steps in exactly this order: trim the
surrounding whitespace at entry; if the (platform) path separator backslash
occurs, reduce to the final path component; then the `!` rule; then strip a
trailing case-insensitive `.exe` suffix; in particular the raw identifier
`C:\Apps\Foo.EXE` normalizes to `Foo`. -/
theorem c5_normalize_step_order :
    (∀ raw : List Char,
        prettify_name raw = exeStep (bangStep (basenameStep (pyStrip raw)))) ∧
      prettify_name (str (r"C:\Apps\Foo.EXE")) = str (r"Foo") := by
  constructor
  · intro raw
    simp only [prettify_name, exeStep, bangStep, basenameStep, getLastD_pySplit]
  · decide

/-- C6: when a `!` occurs, the trimmed segment after the last `!` replaces the
name exactly when it is non-blank; when it is blank the value from before the
`!` rule is kept unchanged, so `Package!   !` is returned whole. -/
theorem c6_bang_blank_fallback :
    (∀ name : List Char, '!' ∈ name →
        (pyStrip (afterLast '!' name) ≠ [] →
            bangStep name = pyStrip (afterLast '!' name)) ∧
          (pyStrip (afterLast '!' name) = [] → bangStep name = name)) ∧
      prettify_name (str (r"Package!   !")) = str (r"Package!   !") := by
  constructor
  · intro name hmem
    constructor
    · intro hne
      unfold bangStep
      rw [if_pos hmem, if_pos hne]
    · intro he
      unfold bangStep
      rw [if_pos hmem, if_neg (by simp [he])]
  · decide

/-- Witness for C6 on the concrete packaged identifier `a!b`. -/
theorem c6_bang_blank_fallback_witness :
    bangStep (str (r"a!b")) = pyStrip (afterLast '!' (str (r"a!b"))) :=
  (c6_bang_blank_fallback.1 (str (r"a!b")) (by decide)).1 (by decide)

/-- C10: when the `!` rule fires the returned segment is stripped of its
surrounding whitespace (`Pkg!  App  ` normalizes to `App`), and the basename
reduction is triggered only by a backslash — a string without backslash is
left alone even if it contains a forward slash (`dir/app.exe` normalizes to
`dir/app`, not `app`). -/
theorem c10_bang_trim_and_backslash_trigger :
    (∀ name : List Char, '!' ∈ name → pyStrip (afterLast '!' name) ≠ [] →
        bangStep name = pyStrip (afterLast '!' name)) ∧
      (∀ name : List Char, '\\' ∉ name → basenameStep name = name) ∧
      prettify_name (str (r"Pkg!  App  ")) = str (r"App") ∧
      prettify_name (str (r"dir/app.exe")) = str (r"dir/app") := by
  refine ⟨fun name hmem hne => ?_, fun name hmem => ?_, by decide, by decide⟩
  · unfold bangStep
    rw [if_pos hmem, if_pos hne]
  · unfold basenameStep
    rw [if_neg hmem]

/-- Witness for C10 on concrete inputs. -/
theorem c10_bang_trim_and_backslash_trigger_witness :
    bangStep (str (r"P!  Q  ")) = pyStrip (afterLast '!' (str (r"P!  Q  "))) ∧
      basenameStep (str (r"x/y")) = str (r"x/y") :=
  ⟨c10_bang_trim_and_backslash_trigger.1 (str (r"P!  Q  ")) (by decide) (by decide),
    c10_bang_trim_and_backslash_trigger.2.1 (str (r"x/y")) (by decide)⟩

/-- C2 counterexample: the claim "the friendly name of a decoded record is
never empty" fails on the code: decoding the key `.rkr` (ROT13 of `.exe`)
yields the empty friendly name, because `prettify_name` strips the `.exe`
suffix and never falls back to the pre-normalization string. -/
theorem c2_counterexample_empty_friendly_name :
    (decode (str (r".rkr")) []).1 = [] := by decide

/-- C2 amended: the friendly name of a decoded record is exactly
`prettify_name` of the ROT13-decoded key, with no emptiness fallback, and it
can be the empty string (a degenerate but legal output callers must
tolerate). -/
theorem c2_amended_friendly_name_may_be_empty :
    (∀ (key : List Char) (payload : List (Fin 256)),
        (decode key payload).1 = prettify_name (rot13 key)) ∧
      ∃ key : List Char, (decode key []).1 = [] :=
  ⟨fun _ _ => rfl, ⟨str (r".rkr"), by decide⟩⟩

/-- C3: count decoding never fails: with fewer than 8 payload bytes the count
is 0; with at least 8 bytes it is exactly the unsigned 32-bit little-endian
integer formed by the four bytes at offset 4; in every case it fits in 32
bits. -/
theorem c3_count_offset4_le :
    (∀ payload : List (Fin 256), payload.length < 8 → usageCount payload = 0) ∧
      (∀ payload : List (Fin 256), 8 ≤ payload.length →
        usageCount payload = leBytes ((payload.drop 4).take 4)) ∧
      ∀ payload : List (Fin 256), usageCount payload < 4294967296 := by
  refine ⟨fun payload h => ?_, fun payload h => ?_, fun payload => ?_⟩
  · unfold usageCount
    rw [if_neg (by omega)]
  · rcases payload with _ | ⟨b0, payload⟩
    · simp at h
    rcases payload with _ | ⟨b1, payload⟩
    · simp at h
    rcases payload with _ | ⟨b2, payload⟩
    · simp at h
    rcases payload with _ | ⟨b3, payload⟩
    · simp at h
    rcases payload with _ | ⟨b4, payload⟩
    · simp at h
    rcases payload with _ | ⟨b5, payload⟩
    · simp at h
    rcases payload with _ | ⟨b6, payload⟩
    · simp at h
    rcases payload with _ | ⟨b7, payload⟩
    · simp at h
    unfold usageCount unpackLEU32From leBytes
    rw [if_pos (by simp)]
    simp [List.getD_cons_succ, List.getD_cons_zero]
    ring
  · unfold usageCount
    split
    · unfold unpackLEU32From
      have h4 := (payload.getD 4 0).isLt
      have h5 := (payload.getD 5 0).isLt
      have h6 := (payload.getD 6 0).isLt
      have h7 := (payload.getD 7 0).isLt
      omega
    · omega

/-- Witness for C3 at concrete payloads (an empty one and an 8-byte one). -/
theorem c3_count_offset4_le_witness :
    usageCount ([] : List (Fin 256)) = 0 ∧
      usageCount ([1, 2, 3, 4, 5, 6, 7, 8] : List (Fin 256)) =
        leBytes ((([1, 2, 3, 4, 5, 6, 7, 8] : List (Fin 256)).drop 4).take 4) :=
  ⟨c3_count_offset4_le.1 [] (by decide), c3_count_offset4_le.2.1 _ (by decide)⟩

/-- C7: the aggregated usage map assigns to each friendly name the sum of the
counts of all raw records that normalize to that name (not the last one seen),
independently of the order in which records are delivered; two records
decoding to `Notepad` with counts 3 and 5 aggregate to 8. -/
theorem c7_aggregation_sums_counts :
    (∀ (sections : List (Option (List RawRecord))) (name : List Char),
        valAt (get_userassist_usage sections) name =
          (((allRecords sections).filter fun r => decide (recordKey r = name)).map
              fun r => usageCount r.2).sum) ∧
      (∀ (s1 s2 : List (Option (List RawRecord))) (name : List Char),
        (allRecords s1).Perm (allRecords s2) →
          valAt (get_userassist_usage s1) name =
            valAt (get_userassist_usage s2) name) ∧
      valAt
          (get_userassist_usage
            [some [(rot13 (str (r"Notepad")), [0, 0, 0, 0, 3, 0, 0, 0]),
                (rot13 (str (r"C:\Apps\Notepad.exe")), [0, 0, 0, 0, 5, 0, 0, 0])]])
          (str (r"Notepad")) = 8 := by
  have hchar : ∀ (sections : List (Option (List RawRecord))) (name : List Char),
      valAt (get_userassist_usage sections) name =
        (((allRecords sections).filter fun r => decide (recordKey r = name)).map
            fun r => usageCount r.2).sum := by
    intro sections name
    have h := valAt_usage_foldl sections [] name
    unfold get_userassist_usage
    rw [h]
    simp [valAt, dGet]
  refine ⟨hchar, fun s1 s2 name hp => ?_, by decide⟩
  rw [hchar, hchar]
  exact List.Perm.sum_eq (List.Perm.map _ (List.Perm.filter _ hp))

/-- Witness for C7: permuting the delivered records across sections does not
change the aggregated value. -/
theorem c7_aggregation_sums_counts_witness :
    valAt (get_userassist_usage [some [(str (r"a"), []), (str (r"b"), [])]])
        (str (r"a")) =
      valAt (get_userassist_usage [some [(str (r"b"), [])], some [(str (r"a"), [])]])
        (str (r"a")) :=
  c7_aggregation_sums_counts.2.1 _ _ _ (by decide)

/-- C9: an absent data source is non-fatal and contributes nothing: a missing
Start-Menu root is skipped, a missing UserAssist section yields no records,
and when every source is absent the result is the empty set / empty map,
still returned normally. -/
theorem c9_absent_sources_nonfatal :
    (∀ pre post : List (Option (List (List Char))),
        get_start_menu_shortcuts (pre ++ none :: post) =
          get_start_menu_shortcuts (pre ++ post)) ∧
      (∀ pre post : List (Option (List RawRecord)),
        get_userassist_usage (pre ++ none :: post) =
          get_userassist_usage (pre ++ post)) ∧
      (∀ roots : List (Option (List (List Char))),
        (∀ r ∈ roots, r = none) → get_start_menu_shortcuts roots = []) ∧
      (∀ sections : List (Option (List RawRecord)),
        (∀ s ∈ sections, s = none) → get_userassist_usage sections = []) := by
  refine ⟨fun pre post => ?_, fun pre post => ?_, fun roots h => ?_,
    fun sections h => ?_⟩
  · unfold get_start_menu_shortcuts
    rw [List.foldl_append, List.foldl_append, List.foldl_cons]
  · unfold get_userassist_usage
    rw [List.foldl_append, List.foldl_append, List.foldl_cons]
    rfl
  · induction roots with
    | nil => rfl
    | cons r rest ih =>
      have hr : r = none := h r (List.mem_cons_self _ _)
      subst hr
      exact ih fun x hx => h x (List.mem_cons_of_mem _ hx)
  · induction sections with
    | nil => rfl
    | cons s rest ih =>
      have hs : s = none := h s (List.mem_cons_self _ _)
      subst hs
      exact ih fun x hx => h x (List.mem_cons_of_mem _ hx)

/-- Witness for C9 on concrete source lists. -/
theorem c9_absent_sources_nonfatal_witness :
    get_start_menu_shortcuts [none, none] = [] ∧
      get_userassist_usage [none, none] = [] :=
  ⟨c9_absent_sources_nonfatal.2.2.1 [none, none] (by decide),
    c9_absent_sources_nonfatal.2.2.2 [none, none] (by decide)⟩

/-- C8: the export writes exactly the names of the rows with
`is_start_menu = true`, sorted alphabetically case-insensitively, one name
per line each terminated by a newline, and nothing else; on the example
ranked list the file content is exactly `Calc`, newline, `Notepad`,
newline. -/
theorem c8_export_content :
    (∀ final_list : List Entry,
        (exportNames final_list).Perm
          ((final_list.filter fun x => x.2.2).map fun x => x.1)) ∧
      (∀ final_list : List Entry, (exportNames final_list).Sorted cfRel) ∧
      (∀ final_list : List Entry,
        export_txt final_list =
          ((exportNames final_list).map fun name => name ++ ['\n']).flatten) ∧
      export_txt [(str (r"Notepad"), 2, true), (str (r"Calc"), 2, true),
          (str (r"Paint"), 10, false)] =
        str (r"Calc") ++ '\n' :: str (r"Notepad") ++ ['\n'] :=
  ⟨fun _ => List.perm_insertionSort cfRel _,
    fun _ => List.sorted_insertionSort cfRel _,
    fun _ => rfl, by decide⟩

/-- C1 (code-bug evidence): with shortcut set containing only `Notepad` and
usage counts `Notepad` to 2 and `Paint` to 10, the list `main` builds is
`[(Paint, 10, false), (Notepad, 2, true)]`: because the sort key negates
`is_start_menu` and the sort is then reversed, entries that are not known
shortcuts come first, contrary to the claimed (and commented) order. -/
theorem c1_reconcile_order_at_example :
    build_final_list [str (r"Notepad")]
        [(str (r"Notepad"), 2), (str (r"Paint"), 10)] =
      [(str (r"Paint"), 10, false), (str (r"Notepad"), 2, true)] := by
  decide
